import Mathlib

/-!
Verification of the knowledge-graph query/projection engine of
Edrak-Knowledge-Explorer (`src/backend/kg_endpoints.py`, duplicated in
`src/backend/kg_file_endpoints.py`).

The embedding models a NetworkX graph as a list of attributed nodes and a
list of attributed edges (node/edge iteration order = list order, which is
NetworkX's insertion order).  Attribute maps are association lists of
string keys to values; values model the Python values that occur here:
strings, non-negative integers and `None`.  Python truthiness (`x or y`,
`if q:`) and `dict.setdefault` are modelled explicitly.

Python `set` iteration order (used by `list(nodes)[:max_nodes]` in
`_ego_subgraph`) is not insertion order; it is modelled by an explicit
enumeration function `enum` that may list the set's elements in any order.
-/

namespace Edrak

/-- An attribute value: a Python string, a non-negative integer, or `None`. -/
inductive Val where
  | s (v : String)
  | n (v : Nat)
  | none
deriving DecidableEq, Repr

/-- Python truthiness test (falsy values among those we model:
`""`, `0`, `None`). -/
def Val.falsy : Val → Bool
  | .s v => v == ""
  | .n v => v == 0
  | .none => true

/-- Python `str()` of a value. -/
def Val.pyStr : Val → String
  | .s v => v
  | .n v => toString v
  | .none => "None"

/-- Python `x or y`: `y` when `x` is falsy, else `x`. -/
def pyOr (a b : Val) : Val := if a.falsy then b else a

/-- A Python dict with string keys, as an association list. -/
abbrev Dict := List (String × Val)

/-- Python `d.get(k)` (`none` when the key is absent). -/
def dget : Dict → String → Option Val
  | [], _ => Option.none
  | p :: rest, k => if p.1 = k then some p.2 else dget rest k

/-- Python `d.get(k, default)`. -/
def dgetD (d : Dict) (k : String) (v : Val) : Val := (dget d k).getD v

/-- Python `d[k] = v`: overwrite in place if the key exists, else append. -/
def dsetOver (d : Dict) (k : String) (v : Val) : Dict :=
  if (dget d k).isSome then d.map (fun p => if p.1 = k then (k, v) else p)
  else d ++ [(k, v)]

/-- Python `d.setdefault(k, v)`: insert only when the key is absent. -/
def dsetdefault (d : Dict) (k : String) (v : Val) : Dict :=
  if (dget d k).isSome then d else d ++ [(k, v)]

abbrev NodeId := String

/-- A graph node: an id plus an attribute map (e.g. `label`). -/
structure Node where
  id : NodeId
  attrs : Dict
deriving DecidableEq, Repr

/-- An undirected edge: two endpoint ids plus an attribute map
(e.g. `relation`). -/
structure Edge where
  src : NodeId
  tgt : NodeId
  attrs : Dict
deriving DecidableEq, Repr

/-- A NetworkX-style graph: nodes and edges in iteration (insertion) order. -/
structure Graph where
  nodes : List Node
  edges : List Edge
deriving DecidableEq, Repr

/-- The node ids of a graph, in iteration order. -/
def Graph.ids (g : Graph) : List NodeId := g.nodes.map (·.id)

/-- `v in G` for a NetworkX graph: node membership. -/
def Graph.hasNode (g : Graph) (v : NodeId) : Prop := v ∈ g.ids

instance (g : Graph) (v : NodeId) : Decidable (g.hasNode v) :=
  inferInstanceAs (Decidable (v ∈ g.ids))

/-- Adjacency: some edge joins `u` and `v` (in either orientation). -/
def Graph.Adj (g : Graph) (u v : NodeId) : Prop :=
  ∃ e ∈ g.edges, (e.src = u ∧ e.tgt = v) ∨ (e.src = v ∧ e.tgt = u)

instance (g : Graph) (u v : NodeId) : Decidable (g.Adj u v) :=
  List.decidableBEx _ g.edges

/-- NetworkX node degree: the number of incident edge endpoints, so a
self-loop counts twice (`G.degree[n]`). -/
def Graph.degree (g : Graph) (v : NodeId) : Nat :=
  g.edges.foldl
    (fun a e => a + (if e.src = v then 1 else 0) + (if e.tgt = v then 1 else 0)) 0

/-- Well-formedness invariants NetworkX guarantees for the graphs the
endpoints receive: node ids are unique, and every edge endpoint is a node. -/
def Graph.WF (g : Graph) : Prop :=
  g.ids.Nodup ∧ ∀ e ∈ g.edges, e.src ∈ g.ids ∧ e.tgt ∈ g.ids

instance (g : Graph) : Decidable g.WF :=
  inferInstanceAs (Decidable (_ ∧ _))

/-- `G.remove_nodes_from(rm)`: drop the listed nodes and every edge
touching one of them. -/
def removeNodes (g : Graph) (rm : List NodeId) : Graph :=
  { nodes := g.nodes.filter (fun n => !decide (n.id ∈ rm))
    edges := g.edges.filter
      (fun e => !decide (e.src ∈ rm) && !decide (e.tgt ∈ rm)) }

/-- `G.subgraph(keep)`: the induced subgraph on the ids in `keep`
(all edges between kept nodes). -/
def inducedSubgraph (g : Graph) (keep : List NodeId) : Graph :=
  { nodes := g.nodes.filter (fun n => decide (n.id ∈ keep))
    edges := g.edges.filter
      (fun e => decide (e.src ∈ keep) && decide (e.tgt ∈ keep)) }

/-- Python substring containment `q in s` on the underlying characters. -/
def strIn (q s : String) : Prop := q.data <:+: s.data

instance (q s : String) : Decidable (strIn q s) :=
  inferInstanceAs (Decidable (_ <:+: _))

/-- Python `s.lower()`, character by character (equivalent to
`String.toLower`, phrased over the character list so that it evaluates in
the kernel). -/
def pyLower (s : String) : String := ⟨s.data.map Char.toLower⟩

/-- The node label used by the substring filter:
`str(d.get("label", "")).lower()` without the lowering. -/
def filterLabel (n : Node) : String := (dgetD n.attrs "label" (.s "")).pyStr

/-- Step 1 of `_filtered_graph`: when `min_degree > 0`, remove every node
whose degree (computed on the graph as received) is below `min_degree`. -/
def degreeFilter (g : Graph) (minDegree : Nat) : Graph :=
  if 0 < minDegree then
    removeNodes g ((g.ids).filter (fun v => decide (g.degree v < minDegree)))
  else g

/-- Step 2 of `_filtered_graph`: when the query is truthy (present and
non-empty), remove every node whose lowered id and lowered label both fail
to contain the lowered query. -/
def substrFilter (g : Graph) (q : Option String) : Graph :=
  match q with
  | Option.none => g
  | Option.some qs =>
    if qs = "" then g
    else
      let ql := pyLower qs
      removeNodes g
        ((g.nodes.filter (fun n =>
            !decide (strIn ql (pyLower n.id)) &&
            !decide (strIn ql (pyLower (filterLabel n))))).map (·.id))

/-- One pass over the size-sorted component list, mirroring the Python
loop: `keep` is a set (modelled as a duplicate-free accumulator list);
stop at the first component whose size would push `len(keep)` past
`maxNodes`. -/
def greedyKeep (maxNodes : Nat) : List (List NodeId) → List NodeId → List NodeId
  | [], acc => acc
  | c :: rest, acc =>
    if maxNodes < acc.length + c.length then acc
    else greedyKeep maxNodes rest (acc ++ c.filter (fun v => !decide (v ∈ acc)))

/-- One expansion step of the reachability closure: append every node
adjacent to the current set that is not yet in it. -/
def expandOnce (g : Graph) (s : List NodeId) : List NodeId :=
  s ++ (g.ids).filter (fun v => !decide (v ∈ s) && decide (∃ u ∈ s, g.Adj u v))

/-- Iterate `expandOnce`. -/
def iterExpand (g : Graph) : Nat → List NodeId → List NodeId
  | 0, s => s
  | k + 1, s => iterExpand g k (expandOnce g s)

/-- The connected component of `v`: iterating the expansion `|V|` times
reaches the closure. -/
def compOf (g : Graph) (v : NodeId) : List NodeId :=
  iterExpand g g.nodes.length [v]

/-- `networkx.connected_components`: scan nodes in iteration order, and for
each node not yet seen emit its component. -/
def componentsAux (g : Graph) : List NodeId → List NodeId → List (List NodeId)
  | [], _ => []
  | v :: rest, seen =>
    if v ∈ seen then componentsAux g rest seen
    else compOf g v :: componentsAux g rest (seen ++ compOf g v)

/-- The connected components of `g`, in discovery order. -/
def components (g : Graph) : List (List NodeId) := componentsAux g g.ids []

/-- `sorted(comps, key=len, reverse=True)`: stable sort by size
descending.  Python's sort is stable, and a stable sort of a total
preorder is unique, so the structurally recursive insertion sort below is
extensionally the same function. -/
def sortComps (cs : List (List NodeId)) : List (List NodeId) :=
  List.insertionSort (fun a b => b.length ≤ a.length) cs

/-- Step 3 of `_filtered_graph`: when more than `maxNodes` nodes remain,
greedily keep whole connected components, largest first. -/
def downsample (g : Graph) (maxNodes : Nat) : Graph :=
  if maxNodes < g.nodes.length ∧ 0 < g.nodes.length then
    inducedSubgraph g (greedyKeep maxNodes (sortComps (components g)) [])
  else g

/-- `_filtered_graph`: degree filter, then substring filter, then
component-bounded downsample. -/
def filteredGraph (g : Graph) (q : Option String) (minDegree maxNodes : Nat) :
    Graph :=
  downsample (substrFilter (degreeFilter g minDegree) q) maxNodes

/-- One hop of `_ego_subgraph`: the union of the neighbor sets of the
frontier nodes, as a duplicate-free list. -/
def frontierNbrs (g : Graph) (fr : List NodeId) : List NodeId :=
  g.ids.filter (fun v => decide (∃ u ∈ fr, g.Adj u v))

/-- The hop loop of `_ego_subgraph` on a (visited, frontier) state:
`nxt = ∪ neighbors(frontier)`, `nodes |= nxt`, `frontier = nxt`, and break
as soon as `len(nodes) >= max_nodes`. -/
def egoLoop (g : Graph) (maxNodes : Nat) :
    Nat → List NodeId × List NodeId → List NodeId × List NodeId
  | 0, st => st
  | d + 1, (vis, fr) =>
    let nxt := frontierNbrs g fr
    let vis2 := vis ++ nxt.filter (fun v => !decide (v ∈ vis))
    if maxNodes ≤ vis2.length then (vis2, nxt)
    else egoLoop g maxNodes d (vis2, nxt)

/-- The visited node list of `_ego_subgraph` after the hop loop, in
discovery order (center first, each hop's additions appended in node
iteration order). -/
def egoVisited (g : Graph) (center : NodeId) (depth maxNodes : Nat) :
    List NodeId :=
  (egoLoop g maxNodes depth ([center], [center])).1

/-- `_ego_subgraph`: 404 when the center is absent; otherwise the induced
subgraph on `list(nodes)[:max_nodes]`.  `nodes` is a Python set, so
`list(nodes)` enumerates the visited set in an unspecified (hash-based)
order; the enumeration is the explicit parameter `enum`, constrained in
the theorems to list exactly the visited elements. -/
def egoSubgraph (g : Graph) (center : NodeId) (depth maxNodes : Nat)
    (enum : List NodeId → List NodeId) : Except String Graph :=
  if center ∈ g.ids then
    Except.ok (inducedSubgraph g
      ((enum (egoVisited g center depth maxNodes)).take maxNodes))
  else Except.error "Center node not found"

instance {ε α : Type} [DecidableEq ε] [DecidableEq α] :
    DecidableEq (Except ε α) := fun a b =>
  match a, b with
  | .error x, .error y => decidable_of_iff (x = y) (by simp)
  | .error _, .ok _ => isFalse (fun hc => Except.noConfusion hc)
  | .ok _, .error _ => isFalse (fun hc => Except.noConfusion hc)
  | .ok x, .ok y => decidable_of_iff (x = y) (by simp)

/-- `v` is reachable from `c` by a walk of length exactly `k`. -/
def ExactW (g : Graph) (c : NodeId) : Nat → NodeId → Prop
  | 0 => fun v => v = c
  | k + 1 => fun v => ∃ u, ExactW g c k u ∧ g.Adj u v

/-- `v` is at BFS distance at most `d` from `c`: some walk of length
`≤ d` reaches it. -/
def WithinDist (g : Graph) (c v : NodeId) (d : Nat) : Prop :=
  ∃ k ≤ d, ExactW g c k v

/-- Reachability (connectivity). -/
def Reach (g : Graph) (u v : NodeId) : Prop := ∃ k, ExactW g u k v

/-- One row of `_derive_triplets_from_edges`: the dict literal
`{subject, relation, object}` updated with the edge attributes other than
`relation`/`label`.  The `relation` field is Python `d.get("relation") or
d.get("label")`, i.e. the falsy-based fallback. -/
def tripletRow (e : Edge) : Dict :=
  (e.attrs.filter (fun p => !(p.1 == "relation") && !(p.1 == "label"))).foldl
    (fun d p => dsetOver d p.1 p.2)
    [("subject", Val.s e.src),
     ("relation", pyOr (dgetD e.attrs "relation" .none) (dgetD e.attrs "label" .none)),
     ("object", Val.s e.tgt)]

/-- `_derive_triplets_from_edges`: one row per edge, in edge-iteration
order. -/
def deriveTriplets (g : Graph) : List Dict := g.edges.map tripletRow

/-- The `/triplets` response shape. -/
structure TripletsPage where
  count : Nat
  skip : Nat
  limit : Nat
  items : List Dict
deriving DecidableEq, Repr

/-- The `/triplets` endpoint body: `count` is the unpaginated total and
`items` is the pure slice `trips[skip : skip + limit]`. -/
def tripletsPage (g : Graph) (skip limit : Nat) : TripletsPage :=
  let trips := deriveTriplets g
  { count := trips.length, skip := skip, limit := limit
    items := (trips.drop skip).take limit }

/-- The serialized node record of `_nx_to_node_link`: the node-link dict
(attributes with `id` set to the node id), then
`setdefault("label", n.get("id"))` and
`setdefault("degree", int(G.degree[id]) if G.has_node(id) else 0)`. -/
def nodeRecord (g : Graph) (n : Node) : Dict :=
  let r0 := dsetOver n.attrs "id" (.s n.id)
  let r1 := dsetdefault r0 "label" (dgetD r0 "id" .none)
  dsetdefault r1 "degree" (if g.hasNode n.id then .n (g.degree n.id) else .n 0)

/-- The serialized edge record of `_nx_to_node_link` for the edge at
index `i`: the node-link dict (attributes with `source`/`target` set),
then `setdefault("id", "e" + i)` and, when a `relation` key is present,
`setdefault("label", e["relation"])`. -/
def edgeRecord (i : Nat) (e : Edge) : Dict :=
  let r0 := dsetOver (dsetOver e.attrs "source" (.s e.src)) "target" (.s e.tgt)
  let r1 := dsetdefault r0 "id" (.s ("e" ++ toString i))
  if (dget r1 "relation").isSome then
    dsetdefault r1 "label" (dgetD r1 "relation" .none)
  else r1

/-- The `{nodes, edges}` node-link response shape. -/
structure NodeLink where
  nodes : List Dict
  edges : List Dict
deriving DecidableEq, Repr

/-- `_nx_to_node_link`: serialize every node and every edge, edges
indexed by enumeration order starting at 0. -/
def nxToNodeLink (g : Graph) : NodeLink :=
  { nodes := g.nodes.map (nodeRecord g)
    edges := g.edges.enum.map (fun p => edgeRecord p.1 p.2) }

/-! ### Concrete example graphs used by witnesses and counterexamples -/

/-- A two-node, one-edge graph. -/
def exPair : Graph := ⟨[⟨"A", []⟩, ⟨"B", []⟩], [⟨"A", "B", []⟩]⟩

/-- The spec's scenario-1 graph: `A-B-C-D` path with `cites` relations. -/
def exPath : Graph :=
  ⟨[⟨"A", []⟩, ⟨"B", []⟩, ⟨"C", []⟩, ⟨"D", []⟩],
   [⟨"A", "B", [("relation", .s "cites")]⟩,
    ⟨"B", "C", [("relation", .s "cites")]⟩,
    ⟨"C", "D", []⟩]⟩

/-- Two disjoint two-node components. -/
def exComps : Graph :=
  ⟨[⟨"A", []⟩, ⟨"B", []⟩, ⟨"C", []⟩, ⟨"D", []⟩],
   [⟨"A", "B", []⟩, ⟨"C", "D", []⟩]⟩

/-- An edge whose `relation` attribute is present but empty (falsy), with a
`label` attribute. -/
def exFalsyRel : Graph :=
  ⟨[⟨"A", []⟩, ⟨"B", []⟩],
   [⟨"A", "B", [("relation", .s ""), ("label", .s "L")]⟩]⟩

/-- An edge already carrying `id`, `label` and `relation` attributes. -/
def exStoredEdge : Graph :=
  ⟨[⟨"A", []⟩, ⟨"B", []⟩],
   [⟨"A", "B", [("id", .s "x"), ("label", .s "stored"), ("relation", .s "rel")]⟩]⟩

/-- A node already carrying a `degree` attribute. -/
def exStoredNode : Graph :=
  ⟨[⟨"A", [("degree", .n 99)]⟩, ⟨"B", []⟩], [⟨"A", "B", []⟩]⟩

/-! ### Dictionary lemmas -/

theorem dget_append (d₁ d₂ : Dict) (k : String) :
    dget (d₁ ++ d₂) k = (dget d₁ k).or (dget d₂ k) := by
  induction d₁ with
  | nil => simp [dget]
  | cons p rest ih => by_cases h : p.1 = k <;> simp [dget, h, ih]

theorem dget_eq_none (d : Dict) (k : String) (h : ¬(dget d k).isSome) :
    dget d k = Option.none := by
  cases hd : dget d k with
  | none => rfl
  | some v => rw [hd] at h; simp at h

theorem dget_map_over_ne (d : Dict) (k k' : String) (v : Val) (h : k ≠ k') :
    dget (d.map (fun p => if p.1 = k' then (k', v) else p)) k = dget d k := by
  induction d with
  | nil => rfl
  | cons p rest ih =>
    by_cases hp : p.1 = k'
    · simp [dget, hp, Ne.symm h, ih]
    · by_cases hk : p.1 = k <;> simp [dget, hp, hk, h, ih]

theorem dget_dsetOver_ne (d : Dict) (k k' : String) (v : Val) (h : k ≠ k') :
    dget (dsetOver d k' v) k = dget d k := by
  unfold dsetOver
  split
  · exact dget_map_over_ne d k k' v h
  · rw [dget_append]
    have : dget [(k', v)] k = Option.none := by simp [dget, Ne.symm h]
    rw [this]
    cases dget d k <;> rfl

theorem dget_map_over_self (d : Dict) (k : String) (v : Val)
    (h : (dget d k).isSome) :
    dget (d.map (fun p => if p.1 = k then (k, v) else p)) k = some v := by
  induction d with
  | nil => simp [dget] at h
  | cons p rest ih =>
    by_cases hp : p.1 = k
    · simp [dget, hp]
    · simp only [dget, hp, if_false] at h
      simp [dget, hp, ih h]

theorem dget_dsetOver_self (d : Dict) (k : String) (v : Val) :
    dget (dsetOver d k v) k = some v := by
  unfold dsetOver
  split
  · exact dget_map_over_self d k v (by assumption)
  · rw [dget_append, dget_eq_none d k (by assumption)]
    simp [dget]

theorem dsetdefault_present (d : Dict) (k : String) (v : Val)
    (h : (dget d k).isSome) : dsetdefault d k v = d := by
  unfold dsetdefault
  simp [h]

theorem dget_dsetdefault_ne (d : Dict) (k k' : String) (v : Val) (h : k ≠ k') :
    dget (dsetdefault d k' v) k = dget d k := by
  unfold dsetdefault
  split
  · rfl
  · rw [dget_append]
    have : dget [(k', v)] k = Option.none := by simp [dget, Ne.symm h]
    rw [this]
    cases dget d k <;> rfl

theorem dget_dsetdefault_self (d : Dict) (k : String) (v : Val) :
    dget (dsetdefault d k v) k = (dget d k).or (some v) := by
  unfold dsetdefault
  by_cases h : (dget d k).isSome
  · rw [if_pos h]
    cases hd : dget d k with
    | none => rw [hd] at h; simp at h
    | some w => rfl
  · rw [if_neg h, dget_append, dget_eq_none d k h]
    simp [dget]

/-! ### Serializer record lemmas -/

theorem nodeRecord_degree (g : Graph) (n : Node) :
    dget (nodeRecord g n) "degree" =
      (dget n.attrs "degree").or
        (some (if g.hasNode n.id then .n (g.degree n.id) else .n 0)) := by
  unfold nodeRecord
  rw [dget_dsetdefault_self, dget_dsetdefault_ne _ _ _ _ (by decide),
    dget_dsetOver_ne _ _ _ _ (by decide)]

theorem edgeRecord_base_get (e : Edge) (k : String) (h1 : k ≠ "source")
    (h2 : k ≠ "target") :
    dget (dsetOver (dsetOver e.attrs "source" (.s e.src)) "target" (.s e.tgt)) k =
      dget e.attrs k := by
  rw [dget_dsetOver_ne _ _ _ _ h2, dget_dsetOver_ne _ _ _ _ h1]

theorem edgeRecord_id (i : Nat) (e : Edge) :
    dget (edgeRecord i e) "id" =
      (dget e.attrs "id").or (some (.s ("e" ++ toString i))) := by
  unfold edgeRecord
  dsimp only
  split
  · rw [dget_dsetdefault_ne _ _ _ _ (by decide), dget_dsetdefault_self,
      edgeRecord_base_get e "id" (by decide) (by decide)]
  · rw [dget_dsetdefault_self, edgeRecord_base_get e "id" (by decide) (by decide)]

theorem edgeRecord_relation_get (i : Nat) (e : Edge) :
    dget (dsetdefault
        (dsetOver (dsetOver e.attrs "source" (.s e.src)) "target" (.s e.tgt))
        "id" (.s ("e" ++ toString i))) "relation" = dget e.attrs "relation" := by
  rw [dget_dsetdefault_ne _ _ _ _ (by decide),
    edgeRecord_base_get e "relation" (by decide) (by decide)]

theorem edgeRecord_label_stored (i : Nat) (e : Edge) (v : Val)
    (h : dget e.attrs "label" = some v) :
    dget (edgeRecord i e) "label" = some v := by
  unfold edgeRecord
  dsimp only
  have hbase : dget (dsetdefault
      (dsetOver (dsetOver e.attrs "source" (.s e.src)) "target" (.s e.tgt))
      "id" (.s ("e" ++ toString i))) "label" = some v := by
    rw [dget_dsetdefault_ne _ _ _ _ (by decide),
      edgeRecord_base_get e "label" (by decide) (by decide), h]
  split
  · rw [dget_dsetdefault_self, hbase]; rfl
  · exact hbase

theorem edgeRecord_label_absent (i : Nat) (e : Edge)
    (h : dget e.attrs "label" = Option.none) :
    dget (edgeRecord i e) "label" = dget e.attrs "relation" := by
  unfold edgeRecord
  dsimp only
  have hbase : dget (dsetdefault
      (dsetOver (dsetOver e.attrs "source" (.s e.src)) "target" (.s e.tgt))
      "id" (.s ("e" ++ toString i))) "label" = Option.none := by
    rw [dget_dsetdefault_ne _ _ _ _ (by decide),
      edgeRecord_base_get e "label" (by decide) (by decide), h]
  split
  · rename_i hrel
    rw [edgeRecord_relation_get i e] at hrel
    rw [dget_dsetdefault_self, hbase]
    cases hr : dget e.attrs "relation" with
    | none => rw [hr] at hrel; simp at hrel
    | some r =>
      simp only [Option.none_or, dgetD, edgeRecord_relation_get i e, hr]
      rfl
  · rename_i hrel
    rw [edgeRecord_relation_get i e] at hrel
    rw [hbase]
    cases hr : dget e.attrs "relation" with
    | none => rfl
    | some r => rw [hr] at hrel; simp at hrel

/-! ### Triplet row lemmas -/

theorem dget_foldl_dsetOver_ne (ps : List (String × Val)) (d : Dict) (k : String)
    (h : ∀ p ∈ ps, p.1 ≠ k) :
    dget (ps.foldl (fun d p => dsetOver d p.1 p.2) d) k = dget d k := by
  induction ps generalizing d with
  | nil => rfl
  | cons p rest ih =>
    rw [List.foldl_cons, ih _ (fun q hq => h q (List.mem_cons_of_mem p hq)),
      dget_dsetOver_ne _ _ _ _ (Ne.symm (h p (List.mem_cons_self p rest)))]

theorem tripletRow_subject (e : Edge) (hk : ∀ p ∈ e.attrs, p.1 ≠ "subject") :
    dget (tripletRow e) "subject" = some (.s e.src) := by
  unfold tripletRow
  rw [dget_foldl_dsetOver_ne]
  · rfl
  · intro p hp
    exact hk p (List.mem_of_mem_filter hp)

theorem tripletRow_object (e : Edge) (hk : ∀ p ∈ e.attrs, p.1 ≠ "object") :
    dget (tripletRow e) "object" = some (.s e.tgt) := by
  unfold tripletRow
  rw [dget_foldl_dsetOver_ne]
  · simp [dget]
  · intro p hp
    exact hk p (List.mem_of_mem_filter hp)

theorem tripletRow_relation (e : Edge) :
    dget (tripletRow e) "relation" =
      some (pyOr (dgetD e.attrs "relation" .none) (dgetD e.attrs "label" .none)) := by
  unfold tripletRow
  rw [dget_foldl_dsetOver_ne]
  · simp [dget]
  · intro p hp
    have := List.of_mem_filter hp
    simp only [Bool.and_eq_true, Bool.not_eq_true', beq_eq_false_iff_ne] at this
    exact this.1

/-! ### Claim C10 -/

/-- C10: the serializer fills `degree` on nodes and `id`/`label` on edges
only when the corresponding key is absent from the record; stored values
are preserved verbatim, and absent keys get the computed degree, the
synthesized `"e" + index` id, and the `relation`-derived label. -/
theorem C10_serializer_setdefault_semantics (g : Graph) :
    (∀ n ∈ g.nodes, ∀ v : Val, dget n.attrs "degree" = some v →
      dget (nodeRecord g n) "degree" = some v) ∧
    (∀ n ∈ g.nodes, dget n.attrs "degree" = Option.none →
      dget (nodeRecord g n) "degree" = some (.n (g.degree n.id))) ∧
    (∀ (i : Nat) (e : Edge) (v : Val), dget e.attrs "id" = some v →
      dget (edgeRecord i e) "id" = some v) ∧
    (∀ (i : Nat) (e : Edge), dget e.attrs "id" = Option.none →
      dget (edgeRecord i e) "id" = some (.s ("e" ++ toString i))) ∧
    (∀ (i : Nat) (e : Edge) (v : Val), dget e.attrs "label" = some v →
      dget (edgeRecord i e) "label" = some v) ∧
    (∀ (i : Nat) (e : Edge) (r : Val), dget e.attrs "label" = Option.none →
      dget e.attrs "relation" = some r →
      dget (edgeRecord i e) "label" = some r) := by
  refine ⟨?_, ?_, ?_, ?_, ?_, ?_⟩
  · intro n _ v hv
    rw [nodeRecord_degree, hv]; rfl
  · intro n hn hv
    have hmem : g.hasNode n.id := List.mem_map_of_mem (·.id) hn
    rw [nodeRecord_degree, hv, if_pos hmem]; rfl
  · intro i e v hv
    rw [edgeRecord_id, hv]; rfl
  · intro i e hv
    rw [edgeRecord_id, hv]; rfl
  · intro i e v hv
    exact edgeRecord_label_stored i e v hv
  · intro i e r hl hr
    rw [edgeRecord_label_absent i e hl, hr]

/-- Witness for C10 at concrete inputs: a stored `degree` of 99 survives,
an absent degree is computed, a stored edge id `"x"` survives, an absent
one becomes `"e0"`, a stored label survives, and an absent label is filled
from `relation`. -/
theorem C10_serializer_setdefault_semantics_witness :
    dget (nodeRecord exStoredNode ⟨"A", [("degree", .n 99)]⟩) "degree" =
        some (.n 99) ∧
    dget (nodeRecord exPair ⟨"A", []⟩) "degree" = some (.n (exPair.degree "A")) ∧
    dget (edgeRecord 0 ⟨"A", "B", [("id", .s "x")]⟩) "id" = some (.s "x") ∧
    dget (edgeRecord 0 ⟨"A", "B", []⟩) "id" = some (.s "e0") ∧
    dget (edgeRecord 0 ⟨"A", "B", [("label", .s "stored")]⟩) "label" =
        some (.s "stored") ∧
    dget (edgeRecord 1 ⟨"A", "B", [("relation", .s "rel")]⟩) "label" =
        some (.s "rel") :=
  ⟨(C10_serializer_setdefault_semantics exStoredNode).1 _ (by decide) _ (by decide),
   (C10_serializer_setdefault_semantics exPair).2.1 _ (by decide) (by decide),
   (C10_serializer_setdefault_semantics exPair).2.2.1 0 _ _ (by decide),
   (C10_serializer_setdefault_semantics exPair).2.2.2.1 0 _ (by decide),
   (C10_serializer_setdefault_semantics exPair).2.2.2.2.1 0 _ _ (by decide),
   (C10_serializer_setdefault_semantics exPair).2.2.2.2.2 1 _ _ (by decide) (by decide)⟩

/-! ### Claim C4 -/

/-- C4 counterexample: on an edge whose `relation` attribute is present
but equal to the empty string (with a `label` attribute `"L"`), the
triplet's relation field is `"L"`, not the stored relation `""` — the code
falls back on any falsy relation, not only on an absent one. -/
theorem C4_falsy_relation_counterexample :
    (deriveTriplets exFalsyRel).map (fun d => dget d "relation") =
        [some (.s "L")] ∧
    dget (exFalsyRel.edges.head (by decide)).attrs "relation" = some (.s "") ∧
    Val.s "L" ≠ Val.s "" := by decide

/-- C4 as amended: one row per edge in edge order; each row's `subject`
and `object` are the edge's endpoints (provided the edge attributes do not
use the reserved keys `subject`/`object`, which the dict-splat would
overwrite); the relation field is the edge's `relation` attribute when
that is present and truthy, else the `label` attribute when present, else
`None` (Python `or` semantics); the page is the pure slice
`[skip : skip+limit)` and `count` is the unpaginated total. -/
theorem C4_triplets_amended (g : Graph)
    (hk : ∀ e ∈ g.edges, ∀ p ∈ e.attrs, p.1 ≠ "subject" ∧ p.1 ≠ "object") :
    (deriveTriplets g).length = g.edges.length ∧
    (∀ e ∈ g.edges,
      tripletRow e ∈ deriveTriplets g ∧
      dget (tripletRow e) "subject" = some (.s e.src) ∧
      dget (tripletRow e) "object" = some (.s e.tgt) ∧
      dget (tripletRow e) "relation" =
        some (pyOr (dgetD e.attrs "relation" .none) (dgetD e.attrs "label" .none))) ∧
    (∀ skip limit : Nat,
      (tripletsPage g skip limit).count = g.edges.length ∧
      (tripletsPage g skip limit).items =
        ((deriveTriplets g).drop skip).take limit) := by
  refine ⟨List.length_map _ _, ?_, ?_⟩
  · intro e he
    exact ⟨List.mem_map_of_mem tripletRow he,
      tripletRow_subject e (fun p hp => (hk e he p hp).1),
      tripletRow_object e (fun p hp => (hk e he p hp).2),
      tripletRow_relation e⟩
  · intro skip limit
    exact ⟨List.length_map _ _, rfl⟩

/-- Witness for C4 as amended, at the spec's scenario-1 graph: three rows,
the `B → C` row carries relation `cites`, and `skip=1, limit=1` slices out
exactly that row with `count = 3`. -/
theorem C4_triplets_amended_witness :
    (deriveTriplets exPath).length = exPath.edges.length ∧
    dget (tripletRow ⟨"B", "C", [("relation", .s "cites")]⟩) "relation" =
        some (.s "cites") ∧
    (tripletsPage exPath 1 1).count = 3 := by
  have h := C4_triplets_amended exPath (by decide)
  exact ⟨h.1, ((h.2.1 _ (by decide)).2.2.2).trans (by decide),
    (h.2.2 1 1).1.trans (by decide)⟩

/-! ### Injectivity of decimal printing (for edge-id uniqueness) -/

theorem toDigitsCore_append (b : Nat) :
    ∀ (fuel n : Nat) (ds : List Char),
      Nat.toDigitsCore b fuel n ds = Nat.toDigitsCore b fuel n [] ++ ds := by
  intro fuel
  induction fuel with
  | zero => intro n ds; rfl
  | succ f ih =>
    intro n ds
    simp only [Nat.toDigitsCore]
    split
    · rfl
    · rw [ih (n / b) (Nat.digitChar (n % b) :: ds), ih (n / b) [Nat.digitChar (n % b)]]
      simp

theorem toDigitsCore_fuel (b : Nat) (hb : 2 ≤ b) :
    ∀ (n f₁ f₂ : Nat), n < f₁ → n < f₂ →
      Nat.toDigitsCore b f₁ n [] = Nat.toDigitsCore b f₂ n [] := by
  intro n
  induction n using Nat.strong_induction_on with
  | _ n ih =>
    intro f₁ f₂ h₁ h₂
    cases f₁ with
    | zero => omega
    | succ f₁ =>
      cases f₂ with
      | zero => omega
      | succ f₂ =>
        simp only [Nat.toDigitsCore]
        split
        · rfl
        · rename_i hnb
          have hble : b ≤ n := by
            by_contra hlt
            exact hnb (Nat.div_eq_of_lt (by omega))
          have hdiv : n / b < n := Nat.div_lt_self (by omega) (by omega)
          rw [toDigitsCore_append b f₁ (n / b), toDigitsCore_append b f₂ (n / b)]
          rw [ih (n / b) hdiv f₁ f₂ (by omega) (by omega)]

theorem toDigits_small (n : Nat) (h : n < 10) :
    Nat.toDigits 10 n = [Nat.digitChar n] := by
  show Nat.toDigitsCore 10 (n + 1) n [] = _
  simp only [Nat.toDigitsCore]
  rw [if_pos (by omega), Nat.mod_eq_of_lt h]

theorem toDigits_step (n : Nat) (h : 10 ≤ n) :
    Nat.toDigits 10 n = Nat.toDigits 10 (n / 10) ++ [Nat.digitChar (n % 10)] := by
  show Nat.toDigitsCore 10 (n + 1) n [] = _
  simp only [Nat.toDigitsCore]
  rw [if_neg (by omega)]
  rw [toDigitsCore_append 10 n (n / 10) [Nat.digitChar (n % 10)]]
  have hdiv : n / 10 < n := Nat.div_lt_self (by omega) (by omega)
  rw [toDigitsCore_fuel 10 (by omega) (n / 10) n (n / 10 + 1) (by omega) (by omega)]
  rfl

theorem toDigits_ne_nil (n : Nat) : Nat.toDigits 10 n ≠ [] := by
  rcases Nat.lt_or_ge n 10 with h | h
  · rw [toDigits_small n h]; simp
  · rw [toDigits_step n h]; simp

theorem digitChar_inj : ∀ a < 10, ∀ b < 10,
    Nat.digitChar a = Nat.digitChar b → a = b := by decide

theorem toDigits_inj : ∀ m n : Nat,
    Nat.toDigits 10 m = Nat.toDigits 10 n → m = n := by
  intro m
  induction m using Nat.strong_induction_on with
  | _ m ih =>
    intro n h
    rcases Nat.lt_or_ge m 10 with hm | hm <;> rcases Nat.lt_or_ge n 10 with hn | hn
    · rw [toDigits_small m hm, toDigits_small n hn] at h
      exact digitChar_inj m hm n hn (List.cons.inj h).1
    · exfalso
      rw [toDigits_small m hm, toDigits_step n hn] at h
      have hlen := congrArg List.length h
      simp only [List.length_append, List.length_cons, List.length_nil] at hlen
      have hz : (Nat.toDigits 10 (n / 10)).length = 0 := by omega
      exact toDigits_ne_nil _ (List.length_eq_zero.mp hz)
    · exfalso
      rw [toDigits_step m hm, toDigits_small n hn] at h
      have hlen := congrArg List.length h
      simp only [List.length_append, List.length_cons, List.length_nil] at hlen
      have hz : (Nat.toDigits 10 (m / 10)).length = 0 := by omega
      exact toDigits_ne_nil _ (List.length_eq_zero.mp hz)
    · rw [toDigits_step m hm, toDigits_step n hn] at h
      obtain ⟨h1, h2⟩ := List.append_inj' h rfl
      have hd := digitChar_inj (m % 10) (by omega) (n % 10) (by omega)
        (List.cons.inj h2).1
      have hdiv : m / 10 < m := Nat.div_lt_self (by omega) (by omega)
      have hq := ih (m / 10) hdiv (n / 10) h1
      omega

theorem natToString_inj (m n : Nat) (h : (toString m : String) = toString n) :
    m = n := by
  apply toDigits_inj
  have hd := congrArg String.data h
  simpa [toString, Nat.repr, List.asString] using hd

theorem eid_inj (m n : Nat)
    (h : ("e" ++ toString m : String) = "e" ++ toString n) : m = n := by
  apply natToString_inj
  have hd := congrArg String.data h
  simp only [String.data_append] at hd
  apply congrArg String.mk
  exact (List.cons.inj hd).2

/-! ### Claim C5 -/

/-- C5 counterexample: on an edge that already carries `id`, `label` and
`relation` attributes, the serialized edge keeps the stored id `"x"`
(instead of the synthesized `"e0"`) and the stored label `"stored"`
(instead of the relation `"rel"`): `setdefault` never overwrites. -/
theorem C5_stored_attrs_counterexample :
    (nxToNodeLink exStoredEdge).edges.map (fun d => dget d "id") =
        [some (.s "x")] ∧
    (nxToNodeLink exStoredEdge).edges.map (fun d => dget d "label") =
        [some (.s "stored")] ∧
    dget (exStoredEdge.edges.head (by decide)).attrs "relation" =
        some (.s "rel") ∧
    Val.s "x" ≠ Val.s "e0" ∧ Val.s "stored" ≠ Val.s "rel" := by decide

/-- C5 as amended: the serializer always emits `|V|` node records and
`|E|` edge records; when no edge carries a stored `id` attribute, the edge
ids are exactly `e0, e1, e2, ...` in edge-iteration order, hence unique;
and when an edge carries no stored `label` attribute, its serialized
`label` equals its `relation` attribute (present or absent alike), with no
fallback to anything else. -/
theorem C5_serializer_totals_amended (g : Graph)
    (hid : ∀ e ∈ g.edges, dget e.attrs "id" = Option.none)
    (hlab : ∀ e ∈ g.edges, dget e.attrs "label" = Option.none) :
    (nxToNodeLink g).nodes.length = g.nodes.length ∧
    (nxToNodeLink g).edges.length = g.edges.length ∧
    (nxToNodeLink g).edges.map (fun d => dget d "id") =
      (List.range g.edges.length).map (fun i => some (.s ("e" ++ toString i))) ∧
    ((nxToNodeLink g).edges.map (fun d => dget d "id")).Nodup ∧
    (∀ p ∈ g.edges.enum,
      dget (edgeRecord p.1 p.2) "label" = dget p.2.attrs "relation") := by
  have hsnd : ∀ p ∈ g.edges.enum, p.2 ∈ g.edges := by
    intro p hp
    have := List.mem_map_of_mem Prod.snd hp
    rwa [List.enum_map_snd] at this
  have hmap : (nxToNodeLink g).edges.map (fun d => dget d "id") =
      (List.range g.edges.length).map
        (fun i => some (.s ("e" ++ toString i))) := by
    show (g.edges.enum.map (fun p => edgeRecord p.1 p.2)).map
        (fun d => dget d "id") = _
    rw [List.map_map]
    have : ∀ p ∈ g.edges.enum,
        ((fun d => dget d "id") ∘ fun p : Nat × Edge => edgeRecord p.1 p.2) p =
        ((fun i => some (Val.s ("e" ++ toString i))) ∘ Prod.fst) p := by
      intro p hp
      show dget (edgeRecord p.1 p.2) "id" = _
      rw [edgeRecord_id, hid p.2 (hsnd p hp)]
      rfl
    rw [List.map_congr_left this, ← List.map_map, List.enum_map_fst]
  refine ⟨List.length_map _ _, ?_, hmap, ?_, ?_⟩
  · show (g.edges.enum.map _).length = _
    rw [List.length_map, List.enum_length]
  · rw [hmap]
    refine List.Nodup.map ?_ (List.nodup_range _)
    intro a b hab
    simp only [Option.some.injEq, Val.s.injEq] at hab
    exact eid_inj a b hab
  · intro p hp
    exact edgeRecord_label_absent p.1 p.2 (hlab p.2 (hsnd p hp))

/-- Witness for C5 as amended, at the spec's scenario-1 graph: 4 node
records, 3 edge records with ids exactly `e0, e1, e2`, and the `A-B`
record's label filled from its `cites` relation. -/
theorem C5_serializer_totals_amended_witness :
    (nxToNodeLink exPath).nodes.length = exPath.nodes.length ∧
    (nxToNodeLink exPath).edges.map (fun d => dget d "id") =
      [some (.s "e0"), some (.s "e1"), some (.s "e2")] ∧
    dget (edgeRecord 0 (exPath.edges.head (by decide))) "label" =
      some (.s "cites") := by
  have h := C5_serializer_totals_amended exPath (by decide) (by decide)
  exact ⟨h.1, h.2.2.1.trans (by decide),
    (h.2.2.2.2 (0, exPath.edges.head (by decide)) (by decide)).trans (by decide)⟩

/-! ### Node-removal lemmas -/

theorem ids_removeNodes (g : Graph) (rm : List NodeId) :
    (removeNodes g rm).ids = g.ids.filter (fun v => !decide (v ∈ rm)) := by
  show (g.nodes.filter _).map _ = (g.nodes.map _).filter _
  rw [List.filter_map]
  rfl

theorem mem_ids_removeNodes (g : Graph) (rm : List NodeId) (v : NodeId) :
    v ∈ (removeNodes g rm).ids ↔ v ∈ g.ids ∧ v ∉ rm := by
  rw [ids_removeNodes]
  simp [List.mem_filter]

theorem mem_edges_removeNodes (g : Graph) (rm : List NodeId) (e : Edge) :
    e ∈ (removeNodes g rm).edges ↔ e ∈ g.edges ∧ e.src ∉ rm ∧ e.tgt ∉ rm := by
  simp [removeNodes, List.mem_filter, and_assoc]

theorem WF_removeNodes (g : Graph) (rm : List NodeId) (h : g.WF) :
    (removeNodes g rm).WF := by
  constructor
  · rw [ids_removeNodes]
    exact h.1.filter _
  · intro e he
    rw [mem_edges_removeNodes] at he
    obtain ⟨hmem, hs, ht⟩ := he
    rw [mem_ids_removeNodes, mem_ids_removeNodes]
    exact ⟨⟨(h.2 e hmem).1, hs⟩, ⟨(h.2 e hmem).2, ht⟩⟩

/-! ### Claim C7 -/

/-- C7: the degree-filter step keeps exactly the nodes whose degree in the
graph it receives is at least `min_degree` (degrees are all computed on
the input graph), removes every edge touching a removed node, and
`min_degree = 0` leaves the graph unchanged. -/
theorem C7_degree_filter_exact (g : Graph) (md : Nat) (hWF : g.WF) :
    degreeFilter g 0 = g ∧
    (degreeFilter g md).ids = g.ids.filter (fun v => decide (md ≤ g.degree v)) ∧
    (∀ e, e ∈ (degreeFilter g md).edges ↔
      e ∈ g.edges ∧ md ≤ g.degree e.src ∧ md ≤ g.degree e.tgt) := by
  refine ⟨by simp [degreeFilter], ?_, ?_⟩
  · by_cases hmd : 0 < md
    · rw [degreeFilter, if_pos hmd, ids_removeNodes]
      apply List.filter_congr
      intro v hv
      by_cases hd : g.degree v < md
      · simp [List.mem_filter, hv, hd, Nat.not_le.mpr hd]
      · simp [List.mem_filter, hd, Nat.le_of_not_lt hd]
    · have h0 : md = 0 := by omega
      subst h0
      simp [degreeFilter, Nat.zero_le]
  · intro e
    by_cases hmd : 0 < md
    · rw [degreeFilter, if_pos hmd, mem_edges_removeNodes]
      constructor
      · rintro ⟨hmem, hs, ht⟩
        refine ⟨hmem, ?_, ?_⟩
        · by_contra hlt
          exact hs (List.mem_filter.mpr
            ⟨(hWF.2 e hmem).1, by simpa using Nat.lt_of_not_le hlt⟩)
        · by_contra hlt
          exact ht (List.mem_filter.mpr
            ⟨(hWF.2 e hmem).2, by simpa using Nat.lt_of_not_le hlt⟩)
      · rintro ⟨hmem, hs, ht⟩
        refine ⟨hmem, ?_, ?_⟩
        · intro hin
          have := (List.mem_filter.mp hin).2
          simp at this
          omega
        · intro hin
          have := (List.mem_filter.mp hin).2
          simp at this
          omega
    · have h0 : md = 0 := by omega
      subst h0
      simp [degreeFilter, Nat.zero_le]

/-- Witness for C7 at the spec's scenario-2 input: with `min_degree = 2`
the `A-B-C-D` path keeps exactly `{B, C}` (degrees 2), only the `B-C` edge
survives, and `min_degree = 0` is an identity. -/
theorem C7_degree_filter_exact_witness :
    (degreeFilter exPath 2).ids = ["B", "C"] ∧
    degreeFilter exPath 0 = exPath ∧
    (⟨"B", "C", [("relation", .s "cites")]⟩ : Edge) ∈ (degreeFilter exPath 2).edges ∧
    (⟨"A", "B", [("relation", .s "cites")]⟩ : Edge) ∉ (degreeFilter exPath 2).edges := by
  have h := C7_degree_filter_exact exPath 2 (by decide)
  refine ⟨h.2.1.trans (by decide), (C7_degree_filter_exact exPath 0 (by decide)).1, ?_, ?_⟩
  · exact (h.2.2 _).mpr ⟨by decide, by decide, by decide⟩
  · intro hmem
    have := (h.2.2 _).mp hmem
    revert this
    decide

/-! ### Claim C6 -/

/-- C6: for a non-empty query, the substring filter keeps exactly the
nodes whose case-folded id or case-folded label contains the case-folded
query, where the label falls back to the empty string when absent; every
edge touching a removed node is removed (an edge survives iff both of its
endpoints survive). -/
theorem C6_substring_filter_exact (g : Graph) (s : String) (hs : s ≠ "")
    (hWF : g.WF) :
    (substrFilter g (Option.some s)).nodes = g.nodes.filter
      (fun n => decide (strIn (pyLower s) (pyLower n.id)) ||
                decide (strIn (pyLower s) (pyLower (filterLabel n)))) ∧
    (∀ e, e ∈ (substrFilter g (Option.some s)).edges ↔
      e ∈ g.edges ∧ e.src ∈ (substrFilter g (Option.some s)).ids ∧
        e.tgt ∈ (substrFilter g (Option.some s)).ids) := by
  have hset : substrFilter g (Option.some s) = removeNodes g
      ((g.nodes.filter (fun n =>
          !decide (strIn (pyLower s) (pyLower n.id)) &&
          !decide (strIn (pyLower s) (pyLower (filterLabel n))))).map (·.id)) := by
    simp only [substrFilter, hs, if_false]
  set rm := (g.nodes.filter (fun n =>
      !decide (strIn (pyLower s) (pyLower n.id)) &&
      !decide (strIn (pyLower s) (pyLower (filterLabel n))))).map (·.id) with hrm
  have hinj := List.inj_on_of_nodup_map hWF.1
  have hmemrm : ∀ n ∈ g.nodes, (n.id ∈ rm ↔
      ¬strIn (pyLower s) (pyLower n.id) ∧
      ¬strIn (pyLower s) (pyLower (filterLabel n))) := by
    intro n hn
    constructor
    · intro hmem
      rw [hrm] at hmem
      simp only [List.mem_map, List.mem_filter] at hmem
      obtain ⟨n', ⟨hn', hbad⟩, heq⟩ := hmem
      cases hinj hn' hn heq
      simpa using hbad
    · intro hbad
      refine List.mem_map_of_mem _ (List.mem_filter.mpr ⟨hn, ?_⟩)
      simpa using hbad
  constructor
  · rw [hset]
    show g.nodes.filter _ = g.nodes.filter _
    apply List.filter_congr
    intro n hn
    by_cases h1 : strIn (pyLower s) (pyLower n.id)
    · simp [hmemrm n hn, h1]
    · by_cases h2 : strIn (pyLower s) (pyLower (filterLabel n))
      · simp [hmemrm n hn, h1, h2]
      · simp [hmemrm n hn, h1, h2]
  · intro e
    rw [hset, mem_edges_removeNodes]
    constructor
    · rintro ⟨hmem, hsrc, htgt⟩
      exact ⟨hmem,
        (mem_ids_removeNodes g rm e.src).mpr ⟨(hWF.2 e hmem).1, hsrc⟩,
        (mem_ids_removeNodes g rm e.tgt).mpr ⟨(hWF.2 e hmem).2, htgt⟩⟩
    · rintro ⟨hmem, hsrc, htgt⟩
      exact ⟨hmem, ((mem_ids_removeNodes g rm e.src).mp hsrc).2,
        ((mem_ids_removeNodes g rm e.tgt).mp htgt).2⟩

/-- Witness for C6: on a graph with nodes `Apple`, `Bee` (labelled
`grAPe`) and `Cat`, the query `"ap"` keeps `Apple` (id match) and `Bee`
(label match, case-folded) and drops `Cat`; the `Apple-Bee` edge survives
while `Bee-Cat` is removed with `Cat`. -/
theorem C6_substring_filter_exact_witness :
    ("ap" : String) ≠ "" ∧
    (substrFilter
        ⟨[⟨"Apple", []⟩, ⟨"Bee", [("label", .s "grAPe")]⟩, ⟨"Cat", []⟩],
         [⟨"Apple", "Bee", []⟩, ⟨"Bee", "Cat", []⟩]⟩
        (Option.some "ap")).nodes =
      [⟨"Apple", []⟩, ⟨"Bee", [("label", .s "grAPe")]⟩] ∧
    ((⟨"Bee", "Cat", []⟩ : Edge) ∈ (substrFilter
        ⟨[⟨"Apple", []⟩, ⟨"Bee", [("label", .s "grAPe")]⟩, ⟨"Cat", []⟩],
         [⟨"Apple", "Bee", []⟩, ⟨"Bee", "Cat", []⟩]⟩
        (Option.some "ap")).edges ↔ False) := by
  have h := C6_substring_filter_exact
    ⟨[⟨"Apple", []⟩, ⟨"Bee", [("label", .s "grAPe")]⟩, ⟨"Cat", []⟩],
     [⟨"Apple", "Bee", []⟩, ⟨"Bee", "Cat", []⟩]⟩ "ap" (by decide) (by decide)
  refine ⟨by decide, h.1.trans (by decide), ?_⟩
  rw [h.2 _]
  constructor
  · rintro ⟨_, _, hc⟩
    revert hc
    decide
  · exact False.elim

/-! ### Claim C9 -/

/-- C9: with no query, `min_degree = 0` and `max_nodes ≥ |V|`, the whole
filter pipeline is the identity: every step is a no-op and the input graph
is returned unchanged (same node list and edge list). -/
theorem C9_noop_filter_pipeline (g : Graph) (m : Nat)
    (h : g.nodes.length ≤ m) :
    filteredGraph g Option.none 0 m = g := by
  have h1 : degreeFilter g 0 = g := by simp [degreeFilter]
  have h2 : substrFilter g Option.none = g := rfl
  rw [filteredGraph, h1, h2, downsample, if_neg (by omega)]

/-- Witness for C9 at the spec's scenario-1 graph with
`max_nodes = 4 = |V|`. -/
theorem C9_noop_filter_pipeline_witness :
    exPath.nodes.length ≤ 4 ∧ filteredGraph exPath Option.none 0 4 = exPath :=
  ⟨by decide, C9_noop_filter_pipeline exPath 4 (by decide)⟩

/-! ### Claim C8 -/

/-- C8: the ego operation fails (HTTP 404) if and only if the center node
is absent from the graph; when the center is present a result graph is
always returned — an empty or zero-match result is never an error. -/
theorem C8_ego_notfound_iff (g : Graph) (c : NodeId) (d m : Nat)
    (enum : List NodeId → List NodeId) (hd1 : 1 ≤ d) (hd4 : d ≤ 4)
    (hm : 1 ≤ m) :
    ((∃ err, egoSubgraph g c d m enum = Except.error err) ↔ ¬g.hasNode c) ∧
    ((∃ H, egoSubgraph g c d m enum = Except.ok H) ↔ g.hasNode c) := by
  unfold egoSubgraph
  by_cases hc : c ∈ g.ids
  · constructor <;> simp [hc, Graph.hasNode]
  · constructor <;> simp [hc, Graph.hasNode]

/-- Witness for C8: `A` is present in the two-node graph and yields a
result; `Z` is absent and yields an error. -/
theorem C8_ego_notfound_iff_witness :
    ((∃ H, egoSubgraph exPair "A" 1 10 id = Except.ok H) ↔
      exPair.hasNode "A") ∧
    ((∃ err, egoSubgraph exPair "Z" 1 10 id = Except.error err) ↔
      ¬exPair.hasNode "Z") :=
  ⟨(C8_ego_notfound_iff exPair "A" 1 10 id (by decide) (by decide) (by decide)).2,
   (C8_ego_notfound_iff exPair "Z" 1 10 id (by decide) (by decide) (by decide)).1⟩

/-! ### BFS reference state and traversal lemmas -/

/-- The hop loop of `_ego_subgraph` with the cap break removed: the pure
BFS reference against which the capped loop is compared. -/
def bfsSt (g : Graph) (c : NodeId) : Nat → List NodeId × List NodeId
  | 0 => ([c], [c])
  | k + 1 =>
    let st := bfsSt g c k
    let nxt := frontierNbrs g st.2
    (st.1 ++ nxt.filter (fun v => !decide (v ∈ st.1)), nxt)

theorem mem_frontierNbrs (g : Graph) (fr : List NodeId) (v : NodeId) :
    v ∈ frontierNbrs g fr ↔ v ∈ g.ids ∧ ∃ u ∈ fr, g.Adj u v := by
  simp [frontierNbrs, List.mem_filter]

theorem ExactW_zero (g : Graph) (c v : NodeId) : ExactW g c 0 v ↔ v = c :=
  Iff.rfl

theorem ExactW_succ (g : Graph) (c v : NodeId) (k : Nat) :
    ExactW g c (k + 1) v ↔ ∃ u, ExactW g c k u ∧ g.Adj u v :=
  Iff.rfl

theorem adj_mem_ids (g : Graph) (hWF : g.WF) {u v : NodeId}
    (h : g.Adj u v) : v ∈ g.ids := by
  obtain ⟨e, he, hcase⟩ := h
  rcases hcase with ⟨h1, h2⟩ | ⟨h1, h2⟩
  · exact h2 ▸ (hWF.2 e he).2
  · exact h1 ▸ (hWF.2 e he).1

theorem ExactW_mem_ids (g : Graph) (c : NodeId) (hWF : g.WF)
    (hc : c ∈ g.ids) : ∀ (k : Nat) (v : NodeId), ExactW g c k v → v ∈ g.ids
  | 0, v, h => by rw [(ExactW_zero g c v).mp h]; exact hc
  | k + 1, v, h => by
    obtain ⟨u, _, hadj⟩ := (ExactW_succ g c v k).mp h
    exact adj_mem_ids g hWF hadj

theorem bfsSt_spec (g : Graph) (c : NodeId) (hWF : g.WF) (hc : c ∈ g.ids) :
    ∀ k : Nat,
      (∀ v, v ∈ (bfsSt g c k).2 ↔ ExactW g c k v) ∧
      (∀ v, v ∈ (bfsSt g c k).1 ↔ ∃ j ≤ k, ExactW g c j v) := by
  intro k
  induction k with
  | zero =>
    constructor
    · intro v
      show v ∈ [c] ↔ _
      simp [ExactW_zero]
    · intro v
      show v ∈ [c] ↔ _
      simp only [List.mem_singleton]
      constructor
      · intro hv
        exact ⟨0, Nat.le_refl 0, (ExactW_zero g c v).mpr hv⟩
      · rintro ⟨j, hj, he⟩
        have hj0 : j = 0 := Nat.le_zero.mp hj
        subst hj0
        exact (ExactW_zero g c v).mp he
  | succ k ih =>
    have h2 : (bfsSt g c (k + 1)).2 = frontierNbrs g (bfsSt g c k).2 := rfl
    have h1 : (bfsSt g c (k + 1)).1 = (bfsSt g c k).1 ++
        (frontierNbrs g (bfsSt g c k).2).filter
          (fun v => !decide (v ∈ (bfsSt g c k).1)) := rfl
    have hfr : ∀ v, v ∈ (bfsSt g c (k + 1)).2 ↔ ExactW g c (k + 1) v := by
      intro v
      rw [h2, mem_frontierNbrs, ExactW_succ]
      constructor
      · rintro ⟨_, u, hu, hadj⟩
        exact ⟨u, (ih.1 u).mp hu, hadj⟩
      · rintro ⟨u, hu, hadj⟩
        exact ⟨adj_mem_ids g hWF hadj, u, (ih.1 u).mpr hu, hadj⟩
    refine ⟨hfr, ?_⟩
    intro v
    rw [h1, List.mem_append, List.mem_filter]
    constructor
    · rintro (hold | ⟨hnew, _⟩)
      · obtain ⟨j, hj, he⟩ := (ih.2 v).mp hold
        exact ⟨j, Nat.le_succ_of_le hj, he⟩
      · exact ⟨k + 1, Nat.le_refl _, (hfr v).mp (h2 ▸ hnew)⟩
    · rintro ⟨j, hj, he⟩
      by_cases hv : v ∈ (bfsSt g c k).1
      · exact Or.inl hv
      · refine Or.inr ⟨?_, by simpa using hv⟩
        rcases Nat.lt_or_ge j (k + 1) with hlt | hge
        · exact absurd ((ih.2 v).mpr ⟨j, by omega, he⟩) hv
        · have : j = k + 1 := by omega
          subst this
          exact h2 ▸ ((hfr v).mpr he)

theorem egoLoop_succ_eq (g : Graph) (m dd : Nat) (vis fr : List NodeId) :
    egoLoop g m (dd + 1) (vis, fr) =
      if m ≤ (vis ++ (frontierNbrs g fr).filter
          (fun v => !decide (v ∈ vis))).length
      then (vis ++ (frontierNbrs g fr).filter (fun v => !decide (v ∈ vis)),
            frontierNbrs g fr)
      else egoLoop g m dd
        (vis ++ (frontierNbrs g fr).filter (fun v => !decide (v ∈ vis)),
         frontierNbrs g fr) := rfl

theorem egoLoop_eq_bfsSt (g : Graph) (m : Nat) (c : NodeId) :
    ∀ (dd k : Nat), (egoLoop g m dd (bfsSt g c k)).1.length < m →
      egoLoop g m dd (bfsSt g c k) = bfsSt g c (k + dd) := by
  intro dd
  induction dd with
  | zero => intro k _; rfl
  | succ dd ih =>
    intro k h
    have hpair : bfsSt g c k = ((bfsSt g c k).1, (bfsSt g c k).2) := rfl
    have hstep : egoLoop g m (dd + 1) (bfsSt g c k) =
        if m ≤ (bfsSt g c (k + 1)).1.length then bfsSt g c (k + 1)
        else egoLoop g m dd (bfsSt g c (k + 1)) := by
      rw [hpair, egoLoop_succ_eq]
      rfl
    by_cases hbr : m ≤ (bfsSt g c (k + 1)).1.length
    · rw [hstep, if_pos hbr] at h
      omega
    · rw [hstep, if_neg hbr] at h ⊢
      rw [ih (k + 1) h]
      congr 1
      omega

theorem egoLoop_nodup_subset (g : Graph) (m : Nat) (hids : g.ids.Nodup) :
    ∀ (dd : Nat) (vis fr : List NodeId), vis.Nodup → vis ⊆ g.ids →
      (egoLoop g m dd (vis, fr)).1.Nodup ∧
      (egoLoop g m dd (vis, fr)).1 ⊆ g.ids := by
  intro dd
  induction dd with
  | zero => intro vis fr h1 h2; exact ⟨h1, h2⟩
  | succ dd ih =>
    intro vis fr h1 h2
    set vis2 := vis ++ (frontierNbrs g fr).filter
      (fun v => !decide (v ∈ vis)) with hvis2
    have hn2 : vis2.Nodup := by
      refine List.Nodup.append h1 (List.Nodup.filter _ (hids.filter _)) ?_
      intro a ha haf
      have := List.mem_filter.mp haf
      simp only [Bool.not_eq_true', decide_eq_false_iff_not] at this
      exact this.2 ha
    have hs2 : vis2 ⊆ g.ids := by
      intro a ha
      rcases List.mem_append.mp ha with h | h
      · exact h2 h
      · exact ((mem_frontierNbrs g fr a).mp (List.mem_of_mem_filter h)).1
    rw [egoLoop_succ_eq]
    split
    · exact ⟨hn2, hs2⟩
    · exact ih vis2 (frontierNbrs g fr) hn2 hs2

theorem WithinDist_mono (g : Graph) (c v : NodeId) {d₁ d₂ : Nat}
    (h : WithinDist g c v d₁) (hle : d₁ ≤ d₂) : WithinDist g c v d₂ := by
  obtain ⟨k, hk, he⟩ := h
  exact ⟨k, Nat.le_trans hk hle, he⟩

theorem egoLoop_vis_withinDist (g : Graph) (m : Nat) (c : NodeId) :
    ∀ (r : Nat) (vis fr : List NodeId) (l : Nat),
      (∀ v ∈ vis, WithinDist g c v l) →
      (∀ v ∈ fr, ExactW g c l v) →
      ∀ v ∈ (egoLoop g m r (vis, fr)).1, WithinDist g c v (l + r) := by
  intro r
  induction r with
  | zero =>
    intro vis fr l hv _ v hm
    exact WithinDist_mono g c v (hv v hm) (by omega)
  | succ r ih =>
    intro vis fr l hv hf v hm
    rw [egoLoop_succ_eq] at hm
    have hnxt : ∀ w ∈ frontierNbrs g fr, ExactW g c (l + 1) w := by
      intro w hw
      obtain ⟨_, u, hu, hadj⟩ := (mem_frontierNbrs g fr w).mp hw
      exact (ExactW_succ g c w l).mpr ⟨u, hf u hu, hadj⟩
    have hvis2 : ∀ w ∈ vis ++ (frontierNbrs g fr).filter
        (fun x => !decide (x ∈ vis)), WithinDist g c w (l + 1) := by
      intro w hw
      rcases List.mem_append.mp hw with hold | hnew
      · exact WithinDist_mono g c w (hv w hold) (by omega)
      · exact ⟨l + 1, Nat.le_refl _, hnxt w (List.mem_of_mem_filter hnew)⟩
    split at hm
    · exact WithinDist_mono g c v (hvis2 v hm) (by omega)
    · have := ih _ _ (l + 1) hvis2 hnxt v hm
      exact WithinDist_mono g c v this (by omega)

/-! ### Induced-subgraph lemmas -/

theorem ids_inducedSubgraph (g : Graph) (keep : List NodeId) :
    (inducedSubgraph g keep).ids = g.ids.filter (fun v => decide (v ∈ keep)) := by
  show (g.nodes.filter _).map _ = (g.nodes.map _).filter _
  rw [List.filter_map]
  rfl

theorem mem_ids_inducedSubgraph (g : Graph) (keep : List NodeId) (v : NodeId) :
    v ∈ (inducedSubgraph g keep).ids ↔ v ∈ g.ids ∧ v ∈ keep := by
  rw [ids_inducedSubgraph]
  simp [List.mem_filter]

theorem mem_edges_inducedSubgraph (g : Graph) (keep : List NodeId) (e : Edge) :
    e ∈ (inducedSubgraph g keep).edges ↔
      e ∈ g.edges ∧ e.src ∈ keep ∧ e.tgt ∈ keep := by
  simp [inducedSubgraph, List.mem_filter, and_assoc]

/-! ### Claim C3 -/

/-- C3: when the cap is never reached (the visited set stays strictly
below `max_nodes`), the ego operation returns the induced subgraph on
exactly the nodes at BFS distance at most `depth` from the center
(including the center, which is at distance 0), with every edge of `G`
between kept nodes, whether or not it was used during traversal. -/
theorem C3_ego_ball_exact (g : Graph) (c : NodeId) (d m : Nat)
    (enum : List NodeId → List NodeId) (hWF : g.WF) (hc : g.hasNode c)
    (hd1 : 1 ≤ d) (hd4 : d ≤ 4) (hm : 1 ≤ m)
    (henum : ∀ l, (enum l).Perm l)
    (hcap : (egoVisited g c d m).length < m) :
    ∃ H, egoSubgraph g c d m enum = Except.ok H ∧
      (∀ v, v ∈ H.ids ↔ v ∈ g.ids ∧ WithinDist g c v d) ∧
      (∀ e, e ∈ H.edges ↔ e ∈ g.edges ∧ e.src ∈ H.ids ∧ e.tgt ∈ H.ids) := by
  have hc' : c ∈ g.ids := hc
  have hvis_eq : egoVisited g c d m = (bfsSt g c d).1 := by
    have h := egoLoop_eq_bfsSt g m c d 0 hcap
    show (egoLoop g m d (bfsSt g c 0)).1 = _
    rw [h, Nat.zero_add]
  have hvmem : ∀ v, v ∈ egoVisited g c d m ↔ WithinDist g c v d := by
    intro v
    rw [hvis_eq]
    exact (bfsSt_spec g c hWF hc' d).2 v
  set vis := egoVisited g c d m with hvisdef
  have hkept : (enum vis).take m = enum vis :=
    List.take_of_length_le (Nat.le_of_lt (by rw [(henum vis).length_eq]; exact hcap))
  have hmem_kept : ∀ v, v ∈ (enum vis).take m ↔ v ∈ vis := by
    intro v
    rw [hkept, (henum vis).mem_iff]
  refine ⟨inducedSubgraph g ((enum vis).take m), ?_, ?_, ?_⟩
  · unfold egoSubgraph
    rw [if_pos hc']
  · intro v
    rw [mem_ids_inducedSubgraph, hmem_kept, hvmem]
  · intro e
    rw [mem_edges_inducedSubgraph]
    constructor
    · rintro ⟨hmem, hsrc, htgt⟩
      exact ⟨hmem,
        (mem_ids_inducedSubgraph g _ e.src).mpr ⟨(hWF.2 e hmem).1, hsrc⟩,
        (mem_ids_inducedSubgraph g _ e.tgt).mpr ⟨(hWF.2 e hmem).2, htgt⟩⟩
    · rintro ⟨hmem, hsrc, htgt⟩
      exact ⟨hmem, ((mem_ids_inducedSubgraph g _ e.src).mp hsrc).2,
        ((mem_ids_inducedSubgraph g _ e.tgt).mp htgt).2⟩

/-- Witness for C3 at the spec's scenario-3 input: `ego(center=B, depth=1,
max_nodes=10)` on the `A-B-C-D` path visits `{B, A, C}` (strictly below
the cap), and the returned node set is exactly the distance-≤1 ball
around `B`. -/
theorem C3_ego_ball_exact_witness :
    (egoVisited exPath "B" 1 10).length < 10 ∧
    (∃ H, egoSubgraph exPath "B" 1 10 id = Except.ok H ∧
      (∀ v, v ∈ H.ids ↔ v ∈ exPath.ids ∧ WithinDist exPath "B" v 1) ∧
      (∀ e, e ∈ H.edges ↔ e ∈ exPath.edges ∧ e.src ∈ H.ids ∧ e.tgt ∈ H.ids)) :=
  ⟨by decide,
   C3_ego_ball_exact exPath "B" 1 10 id (by decide) (by decide) (by decide)
     (by decide) (by decide) (fun l => List.Perm.refl l) (by decide)⟩

/-! ### Claim C2 -/

/-- C2 counterexample: on the `A-B` graph with `depth = 1` and
`max_nodes = 1`, the visited set in discovery order is `[A, B]` (center
first), and `List.reverse` is a legitimate enumeration of that set (a
permutation, as a Python `set` iteration may produce); yet with that
enumeration the code returns the single node `B` — not the center — so
the returned node set is not the first `max_nodes` elements of the
visited set in discovery order (any such prefix starts with the center). -/
theorem C2_discovery_order_counterexample :
    egoVisited exPair "A" 1 1 = ["A", "B"] ∧
    (List.reverse ["A", "B"]).Perm ["A", "B"] ∧
    egoSubgraph exPair "A" 1 1 List.reverse =
      Except.ok ⟨[⟨"B", []⟩], []⟩ ∧
    "A" ∉ (Graph.ids ⟨[⟨"B", []⟩], []⟩) := by decide

/-- C2 as amended: when the cap is reached, the ego operation returns
exactly `max_nodes` nodes, and every returned node belongs to the visited
set (hence lies within `depth` hops of the center); but which `max_nodes`
elements of the visited set are returned is decided by the set's
unspecified iteration order, not by discovery order, and the center need
not be among them. -/
theorem C2_ego_truncation_amended (g : Graph) (c : NodeId) (d m : Nat)
    (enum : List NodeId → List NodeId) (hWF : g.WF) (hc : g.hasNode c)
    (hd1 : 1 ≤ d) (hd4 : d ≤ 4) (hm : 1 ≤ m)
    (henum : ∀ l, (enum l).Perm l)
    (hcap : m ≤ (egoVisited g c d m).length) :
    ∃ H, egoSubgraph g c d m enum = Except.ok H ∧
      H.nodes.length = m ∧
      (∀ v, v ∈ H.ids → v ∈ egoVisited g c d m) ∧
      (∀ v, v ∈ H.ids → WithinDist g c v d) := by
  have hc' : c ∈ g.ids := hc
  set vis := egoVisited g c d m with hvisdef
  have hvprops : vis.Nodup ∧ vis ⊆ g.ids := by
    apply egoLoop_nodup_subset g m hWF.1 d [c] [c] (by simp)
    intro v hv
    rw [List.mem_singleton.mp hv]
    exact hc'
  have henodup : (enum vis).Nodup := ((henum vis).symm).nodup hvprops.1
  have hknodup : ((enum vis).take m).Nodup :=
    List.Nodup.sublist (List.take_sublist m (enum vis)) henodup
  have hksub_vis : (enum vis).take m ⊆ vis := by
    intro v hv
    exact (henum vis).mem_iff.mp ((List.take_sublist m (enum vis)).subset hv)
  have hklen : ((enum vis).take m).length = m := by
    rw [List.length_take, (henum vis).length_eq]
    omega
  have hperm : (inducedSubgraph g ((enum vis).take m)).ids.Perm
      ((enum vis).take m) := by
    have hn : (inducedSubgraph g ((enum vis).take m)).ids.Nodup := by
      rw [ids_inducedSubgraph]
      exact hWF.1.filter _
    apply List.Subperm.antisymm
    · apply hn.subperm
      intro v hv
      exact ((mem_ids_inducedSubgraph g _ v).mp hv).2
    · apply hknodup.subperm
      intro v hv
      exact (mem_ids_inducedSubgraph g _ v).mpr ⟨hvprops.2 (hksub_vis hv), hv⟩
  refine ⟨inducedSubgraph g ((enum vis).take m), ?_, ?_, ?_, ?_⟩
  · unfold egoSubgraph
    rw [if_pos hc']
  · have hlm : (inducedSubgraph g ((enum vis).take m)).ids.length =
        (inducedSubgraph g ((enum vis).take m)).nodes.length :=
      List.length_map _ _
    rw [← hlm, hperm.length_eq, hklen]
  · intro v hv
    exact hksub_vis ((mem_ids_inducedSubgraph g _ v).mp hv).2
  · intro v hv
    have hvmem : v ∈ vis := hksub_vis ((mem_ids_inducedSubgraph g _ v).mp hv).2
    have := egoLoop_vis_withinDist g m c d [c] [c] 0 ?_ ?_ v hvmem
    · exact (Nat.zero_add d) ▸ this
    · intro w hw
      rw [List.mem_singleton.mp hw]
      exact ⟨0, Nat.le_refl 0, (ExactW_zero g c c).mpr rfl⟩
    · intro w hw
      rw [List.mem_singleton.mp hw]
      exact (ExactW_zero g c c).mpr rfl

/-- Witness for C2 as amended: on the `A-B` graph with `max_nodes = 1`
(reached mid-hop) and the identity enumeration, exactly one node is
returned, drawn from the visited set and within one hop of `A`. -/
theorem C2_ego_truncation_amended_witness :
    1 ≤ (egoVisited exPair "A" 1 1).length ∧
    (∃ H, egoSubgraph exPair "A" 1 1 id = Except.ok H ∧
      H.nodes.length = 1 ∧
      (∀ v, v ∈ H.ids → v ∈ egoVisited exPair "A" 1 1) ∧
      (∀ v, v ∈ H.ids → WithinDist exPair "A" v 1)) :=
  ⟨by decide,
   C2_ego_truncation_amended exPair "A" 1 1 id (by decide) (by decide)
     (by decide) (by decide) (by decide) (fun l => List.Perm.refl l) (by decide)⟩

/-! ### Connected-component machinery: the expansion reaches a closure -/

theorem mem_expandOnce (g : Graph) (s : List NodeId) (v : NodeId) :
    v ∈ expandOnce g s ↔ v ∈ s ∨ (v ∈ g.ids ∧ ∃ u ∈ s, g.Adj u v) := by
  simp only [expandOnce, List.mem_append, List.mem_filter, Bool.and_eq_true,
    Bool.not_eq_true', decide_eq_false_iff_not, decide_eq_true_eq]
  constructor
  · rintro (h | ⟨h1, h2, h3⟩)
    · exact Or.inl h
    · exact Or.inr ⟨h1, h3⟩
  · rintro (h | ⟨h1, h3⟩)
    · exact Or.inl h
    · by_cases hv : v ∈ s
      · exact Or.inl hv
      · exact Or.inr ⟨h1, hv, h3⟩

theorem subset_expandOnce (g : Graph) (s : List NodeId) : s ⊆ expandOnce g s :=
  fun _ hv => List.mem_append.mpr (Or.inl hv)

theorem expandOnce_nodup_subset (g : Graph) (hids : g.ids.Nodup)
    (s : List NodeId) (h1 : s.Nodup) (h2 : s ⊆ g.ids) :
    (expandOnce g s).Nodup ∧ expandOnce g s ⊆ g.ids := by
  constructor
  · refine List.Nodup.append h1 (hids.filter _) ?_
    intro a ha haf
    have := List.mem_filter.mp haf
    simp only [Bool.and_eq_true, Bool.not_eq_true', decide_eq_false_iff_not] at this
    exact this.2.1 ha
  · intro a ha
    rcases List.mem_append.mp ha with h | h
    · exact h2 h
    · exact List.mem_of_mem_filter h

theorem expandOnce_grow (g : Graph) (s : List NodeId)
    (h : expandOnce g s ≠ s) : s.length + 1 ≤ (expandOnce g s).length := by
  unfold expandOnce at *
  rcases hnil : (g.ids).filter
      (fun v => !decide (v ∈ s) && decide (∃ u ∈ s, g.Adj u v)) with _ | ⟨a, t⟩
  · rw [hnil] at h
    simp at h
  · rw [List.length_append, List.length_cons]
    omega

theorem expandOnce_fix_of_full (g : Graph) (s : List NodeId) (h1 : s.Nodup)
    (h2 : s ⊆ g.ids) (h3 : g.ids.length ≤ s.length) : expandOnce g s = s := by
  have hnil : (g.ids).filter
      (fun v => !decide (v ∈ s) && decide (∃ u ∈ s, g.Adj u v)) = [] := by
    rw [List.filter_eq_nil_iff]
    intro v hv
    simp only [Bool.and_eq_true, Bool.not_eq_true', decide_eq_false_iff_not,
      decide_eq_true_eq, not_and]
    intro hnotmem
    exfalso
    have hnodup : (s ++ [v]).Nodup := by
      refine List.Nodup.append h1 (by simp) ?_
      intro a ha hav
      rw [List.mem_singleton.mp hav] at ha
      exact hnotmem ha
    have hsub : (s ++ [v]) ⊆ g.ids := by
      intro a ha
      rcases List.mem_append.mp ha with h | h
      · exact h2 h
      · rw [List.mem_singleton.mp h]
        exact hv
    have := (hnodup.subperm hsub).length_le
    rw [List.length_append, List.length_singleton] at this
    omega
  unfold expandOnce
  rw [hnil, List.append_nil]

theorem iterExpand_of_fix (g : Graph) (s : List NodeId)
    (h : expandOnce g s = s) : ∀ k, iterExpand g k s = s := by
  intro k
  induction k with
  | zero => rfl
  | succ k ih =>
    show iterExpand g k (expandOnce g s) = s
    rw [h, ih]

theorem iterExpand_fix (g : Graph) (hids : g.ids.Nodup) :
    ∀ (k : Nat) (s : List NodeId), s.Nodup → s ⊆ g.ids →
      g.ids.length ≤ s.length + k →
      expandOnce g (iterExpand g k s) = iterExpand g k s := by
  intro k
  induction k with
  | zero =>
    intro s h1 h2 h3
    exact expandOnce_fix_of_full g s h1 h2 (by omega)
  | succ k ih =>
    intro s h1 h2 h3
    by_cases hfix : expandOnce g s = s
    · have hit : iterExpand g (k + 1) s = s := by
        show iterExpand g k (expandOnce g s) = s
        rw [hfix, iterExpand_of_fix g s hfix]
      rw [hit]
      exact hfix
    · obtain ⟨hn, hs⟩ := expandOnce_nodup_subset g hids s h1 h2
      have hgrow := expandOnce_grow g s hfix
      show expandOnce g (iterExpand g k (expandOnce g s)) = _
      exact ih (expandOnce g s) hn hs (by omega)

theorem iterExpand_nodup_subset (g : Graph) (hids : g.ids.Nodup) :
    ∀ (k : Nat) (s : List NodeId), s.Nodup → s ⊆ g.ids →
      (iterExpand g k s).Nodup ∧ iterExpand g k s ⊆ g.ids := by
  intro k
  induction k with
  | zero => intro s h1 h2; exact ⟨h1, h2⟩
  | succ k ih =>
    intro s h1 h2
    obtain ⟨hn, hs⟩ := expandOnce_nodup_subset g hids s h1 h2
    exact ih _ hn hs

theorem subset_iterExpand (g : Graph) :
    ∀ (k : Nat) (s : List NodeId), s ⊆ iterExpand g k s := by
  intro k
  induction k with
  | zero => intro s a ha; exact ha
  | succ k ih =>
    intro s a ha
    exact ih (expandOnce g s) (subset_expandOnce g s ha)

theorem compOf_fix (g : Graph) (hids : g.ids.Nodup) (v : NodeId)
    (hv : v ∈ g.ids) : expandOnce g (compOf g v) = compOf g v := by
  refine iterExpand_fix g hids g.nodes.length [v] (by simp) ?_ ?_
  · intro a ha
    rw [List.mem_singleton.mp ha]
    exact hv
  · have hlen : g.ids.length = g.nodes.length := List.length_map _ _
    simp only [List.length_singleton]
    omega

theorem compOf_nodup_subset (g : Graph) (hids : g.ids.Nodup) (v : NodeId)
    (hv : v ∈ g.ids) : (compOf g v).Nodup ∧ compOf g v ⊆ g.ids := by
  refine iterExpand_nodup_subset g hids g.nodes.length [v] (by simp) ?_
  intro a ha
  rw [List.mem_singleton.mp ha]
  exact hv

theorem mem_compOf_self (g : Graph) (v : NodeId) : v ∈ compOf g v :=
  subset_iterExpand g g.nodes.length [v] (List.mem_singleton.mpr rfl)

theorem closed_of_fix (g : Graph) (hWF : g.WF) (s : List NodeId)
    (hfix : expandOnce g s = s) :
    ∀ u ∈ s, ∀ w, g.Adj u w → w ∈ s := by
  intro u hu w hadj
  by_contra hw
  have hwid : w ∈ g.ids := adj_mem_ids g hWF hadj
  have hmem : w ∈ expandOnce g s :=
    (mem_expandOnce g s w).mpr (Or.inr ⟨hwid, u, hu, hadj⟩)
  rw [hfix] at hmem
  exact hw hmem

theorem compOf_closed (g : Graph) (hWF : g.WF) (v : NodeId) (hv : v ∈ g.ids) :
    ∀ u ∈ compOf g v, ∀ w, g.Adj u w → w ∈ compOf g v :=
  closed_of_fix g hWF _ (compOf_fix g hWF.1 v hv)

theorem closed_reach (g : Graph) (s : List NodeId)
    (hcl : ∀ u ∈ s, ∀ w, g.Adj u w → w ∈ s) :
    ∀ (k : Nat) (u : NodeId), u ∈ s → ∀ w, ExactW g u k w → w ∈ s := by
  intro k
  induction k with
  | zero =>
    intro u hu w hw
    rw [(ExactW_zero g u w).mp hw]
    exact hu
  | succ k ih =>
    intro u hu w hw
    obtain ⟨x, hx, hadj⟩ := (ExactW_succ g u w k).mp hw
    exact hcl x (ih u hu x hx) w hadj

theorem components_src (g : Graph) :
    ∀ (l seen : List NodeId), l ⊆ g.ids →
      ∀ cmp ∈ componentsAux g l seen, ∃ v ∈ g.ids, cmp = compOf g v := by
  intro l
  induction l with
  | nil =>
    intro seen _ cmp h
    simp [componentsAux] at h
  | cons v rest ih =>
    intro seen hsub cmp hmem
    have hrest : rest ⊆ g.ids := fun a ha => hsub (List.mem_cons_of_mem v ha)
    unfold componentsAux at hmem
    split at hmem
    · exact ih seen hrest cmp hmem
    · rcases List.mem_cons.mp hmem with heq | hrec
      · exact ⟨v, hsub (List.mem_cons_self v rest), heq⟩
      · exact ih _ hrest cmp hrec

theorem greedyKeep_length (m : Nat) :
    ∀ (cs : List (List NodeId)) (acc : List NodeId), acc.length ≤ m →
      (greedyKeep m cs acc).length ≤ m := by
  intro cs
  induction cs with
  | nil => intro acc h; exact h
  | cons c rest ih =>
    intro acc h
    unfold greedyKeep
    split
    · exact h
    · rename_i hle
      apply ih
      have hf := List.length_filter_le (fun v => !decide (v ∈ acc)) c
      rw [List.length_append]
      omega

theorem greedyKeep_subset (m : Nat) (X : List NodeId) :
    ∀ (cs : List (List NodeId)) (acc : List NodeId), acc ⊆ X →
      (∀ c ∈ cs, c ⊆ X) → greedyKeep m cs acc ⊆ X := by
  intro cs
  induction cs with
  | nil => intro acc h _; exact h
  | cons c rest ih =>
    intro acc hacc hcs
    unfold greedyKeep
    split
    · exact hacc
    · apply ih
      · intro a ha
        rcases List.mem_append.mp ha with h | h
        · exact hacc h
        · exact hcs c (List.mem_cons_self c rest) (List.mem_of_mem_filter h)
      · intro c' hc'
        exact hcs c' (List.mem_cons_of_mem c hc')

theorem mem_union_acc (acc c : List NodeId) (a : NodeId) :
    a ∈ acc ++ c.filter (fun v => !decide (v ∈ acc)) ↔ a ∈ acc ∨ a ∈ c := by
  simp only [List.mem_append, List.mem_filter, Bool.not_eq_true',
    decide_eq_false_iff_not]
  constructor
  · rintro (h | ⟨h, _⟩)
    · exact Or.inl h
    · exact Or.inr h
  · rintro (h | h)
    · exact Or.inl h
    · by_cases ha : a ∈ acc
      · exact Or.inl ha
      · exact Or.inr ⟨h, ha⟩

theorem greedyKeep_closed (g : Graph) (m : Nat) :
    ∀ (cs : List (List NodeId)) (acc : List NodeId),
      (∀ u ∈ acc, ∀ w, g.Adj u w → w ∈ acc) →
      (∀ c ∈ cs, ∀ u ∈ c, ∀ w, g.Adj u w → w ∈ c) →
      ∀ u ∈ greedyKeep m cs acc, ∀ w, g.Adj u w → w ∈ greedyKeep m cs acc := by
  intro cs
  induction cs with
  | nil => intro acc hacc _; exact hacc
  | cons c rest ih =>
    intro acc hacc hcs
    unfold greedyKeep
    split
    · exact hacc
    · apply ih
      · intro u hu w hadj
        rcases (mem_union_acc acc c u).mp hu with h | h
        · exact (mem_union_acc acc c w).mpr
            (Or.inl (hacc u h w hadj))
        · exact (mem_union_acc acc c w).mpr
            (Or.inr (hcs c (List.mem_cons_self c rest) u h w hadj))
      · intro c' hc'
        exact hcs c' (List.mem_cons_of_mem c hc')

theorem greedyKeep_nodup (m : Nat) :
    ∀ (cs : List (List NodeId)) (acc : List NodeId), acc.Nodup →
      (∀ c ∈ cs, c.Nodup) → (greedyKeep m cs acc).Nodup := by
  intro cs
  induction cs with
  | nil => intro acc h _; exact h
  | cons c rest ih =>
    intro acc hacc hcs
    unfold greedyKeep
    split
    · exact hacc
    · apply ih
      · refine List.Nodup.append hacc
          (List.Nodup.filter _ (hcs c (List.mem_cons_self c rest))) ?_
        intro a ha haf
        have := List.mem_filter.mp haf
        simp only [Bool.not_eq_true', decide_eq_false_iff_not] at this
        exact this.2 ha
      · intro c' hc'
        exact hcs c' (List.mem_cons_of_mem c hc')

theorem sortComps_perm (cs : List (List NodeId)) : (sortComps cs).Perm cs :=
  List.perm_insertionSort _ cs

theorem sortComps_sorted (cs : List (List NodeId)) :
    (sortComps cs).Pairwise (fun a b => b.length ≤ a.length) := by
  haveI : IsTotal (List NodeId) (fun a b => b.length ≤ a.length) :=
    ⟨fun a b => Nat.le_total b.length a.length⟩
  haveI : IsTrans (List NodeId) (fun a b => b.length ≤ a.length) :=
    ⟨fun _ _ _ hab hbc => Nat.le_trans hbc hab⟩
  exact List.sorted_insertionSort _ cs

theorem WF_degreeFilter (g : Graph) (md : Nat) (h : g.WF) :
    (degreeFilter g md).WF := by
  unfold degreeFilter
  split
  · exact WF_removeNodes g _ h
  · exact h

theorem WF_substrFilter (g : Graph) (q : Option String) (h : g.WF) :
    (substrFilter g q).WF := by
  cases q with
  | none => exact h
  | some qs =>
    by_cases hq : qs = ""
    · simpa [substrFilter, hq] using h
    · simp only [substrFilter, hq, if_false]
      exact WF_removeNodes g _ h

/-! ### Claim C1 -/

/-- C1: when more than `max_nodes` nodes remain after the degree and
substring steps, the filter returns the induced subgraph of that
intermediate graph on the keep-set built by greedily accepting whole
connected components in size-descending order (stably sorted, so the
component list is a permutation of the discovery-order components and is
pairwise size-descending) until the next component would overflow; the
result has at most `max_nodes` nodes and never splits a component: the
kept id-set is closed under adjacency and under reachability in the
intermediate graph.  It may hold fewer than `max_nodes` nodes, as the
witness shows. -/
theorem C1_downsample_whole_components (g : Graph) (q : Option String)
    (md m : Nat) (hWF : g.WF) (hm : 1 ≤ m)
    (hbig : m < (substrFilter (degreeFilter g md) q).nodes.length) :
    filteredGraph g q md m =
      inducedSubgraph (substrFilter (degreeFilter g md) q)
        (greedyKeep m
          (sortComps (components (substrFilter (degreeFilter g md) q))) []) ∧
    (filteredGraph g q md m).nodes.length ≤ m ∧
    (∀ u v, u ∈ (filteredGraph g q md m).ids →
      (substrFilter (degreeFilter g md) q).Adj u v →
      v ∈ (filteredGraph g q md m).ids) ∧
    (∀ u v, u ∈ (filteredGraph g q md m).ids →
      Reach (substrFilter (degreeFilter g md) q) u v →
      v ∈ (filteredGraph g q md m).ids) ∧
    (sortComps (components (substrFilter (degreeFilter g md) q))).Pairwise
      (fun a b => b.length ≤ a.length) ∧
    (sortComps (components (substrFilter (degreeFilter g md) q))).Perm
      (components (substrFilter (degreeFilter g md) q)) := by
  set H2 := substrFilter (degreeFilter g md) q with hH2
  have hWF2 : H2.WF := WF_substrFilter _ q (WF_degreeFilter g md hWF)
  set K := greedyKeep m (sortComps (components H2)) [] with hKdef
  have hcomp_src : ∀ cmp ∈ components H2, ∃ v ∈ H2.ids, cmp = compOf H2 v :=
    components_src H2 H2.ids [] (fun _ ha => ha)
  have hsorted_src : ∀ cmp ∈ sortComps (components H2),
      ∃ v ∈ H2.ids, cmp = compOf H2 v := by
    intro cmp hcmp
    exact hcomp_src cmp ((sortComps_perm _).mem_iff.mp hcmp)
  have hKsub : K ⊆ H2.ids := by
    refine greedyKeep_subset m H2.ids _ [] (List.nil_subset _) ?_
    intro c hc
    obtain ⟨v, hv, rfl⟩ := hsorted_src c hc
    exact (compOf_nodup_subset H2 hWF2.1 v hv).2
  have hKlen : K.length ≤ m := greedyKeep_length m _ [] (by simp)
  have hKclosed : ∀ u ∈ K, ∀ w, H2.Adj u w → w ∈ K := by
    refine greedyKeep_closed H2 m _ []
      (fun u hu => absurd hu (List.not_mem_nil u)) ?_
    intro c hc
    obtain ⟨v, hv, rfl⟩ := hsorted_src c hc
    exact compOf_closed H2 hWF2 v hv
  have hfe : filteredGraph g q md m = inducedSubgraph H2 K := by
    show downsample H2 m = _
    unfold downsample
    rw [if_pos ⟨hbig, by omega⟩]
  refine ⟨hfe, ?_, ?_, ?_, sortComps_sorted _, sortComps_perm _⟩
  · rw [hfe]
    have hids : (inducedSubgraph H2 K).ids.Nodup := by
      rw [ids_inducedSubgraph]
      exact hWF2.1.filter _
    have hsub : (inducedSubgraph H2 K).ids ⊆ K := by
      intro a ha
      exact ((mem_ids_inducedSubgraph H2 K a).mp ha).2
    have hle : (inducedSubgraph H2 K).ids.length ≤ K.length :=
      (hids.subperm hsub).length_le
    have hmap : (inducedSubgraph H2 K).ids.length =
        (inducedSubgraph H2 K).nodes.length := List.length_map _ _
    omega
  · intro u v hu hadj
    rw [hfe] at hu ⊢
    have huK := ((mem_ids_inducedSubgraph H2 K u).mp hu).2
    have hvK := hKclosed u huK v hadj
    exact (mem_ids_inducedSubgraph H2 K v).mpr ⟨hKsub hvK, hvK⟩
  · intro u v hu hreach
    rw [hfe] at hu ⊢
    obtain ⟨k, hk⟩ := hreach
    have huK := ((mem_ids_inducedSubgraph H2 K u).mp hu).2
    have hvK := closed_reach H2 K hKclosed k u huK v hk
    exact (mem_ids_inducedSubgraph H2 K v).mpr ⟨hKsub hvK, hvK⟩

/-- Witness for C1: two disjoint two-node components with
`max_nodes = 3`.  The first component `{A, B}` is accepted, the second
would overflow (2 + 2 > 3), so the result is exactly `{A, B}` — a whole
component, within the cap, and strictly fewer than `max_nodes` nodes. -/
theorem C1_downsample_whole_components_witness :
    3 < (substrFilter (degreeFilter exComps 0) Option.none).nodes.length ∧
    filteredGraph exComps Option.none 0 3 =
      inducedSubgraph (substrFilter (degreeFilter exComps 0) Option.none)
        (greedyKeep 3
          (sortComps (components
            (substrFilter (degreeFilter exComps 0) Option.none))) []) ∧
    (filteredGraph exComps Option.none 0 3).nodes.length ≤ 3 ∧
    (filteredGraph exComps Option.none 0 3).ids = ["A", "B"] :=
  ⟨by decide,
   (C1_downsample_whole_components exComps Option.none 0 3 (by decide)
     (by decide) (by decide)).1,
   (C1_downsample_whole_components exComps Option.none 0 3 (by decide)
     (by decide) (by decide)).2.1,
   by decide⟩

end Edrak
